/-
Verification of the `nimrud` geometry module (`src/nimrud/utils/geometry.py`).

The module implements a `VoxelFilter` (a uniform voxel grid over a 2D/3D point
cloud converting coordinates to bit-packed integer addresses and back), a joint
region filter `nested_regions`, and a nested octree/grid partitioner
(`NestedOctree`, `NestedGrid`).

The embedding below models points as lists of rationals (idealizing the
floating-point arithmetic of the source exactly), numpy arrays as lists, and
raised exceptions as `Except String` errors.
-/
import Mathlib

namespace Nimrud

/-! ### Column minima and maxima (numpy `points.min(0)` / `points.max(0)`) -/

/-- Minimum of a list of rationals; `0` on the empty list (numpy raises there,
every use below is guarded by a nonempty point cloud). -/
def listMin : List ℚ → ℚ
  | [] => 0
  | x :: xs => xs.foldl min x

/-- Maximum of a list of rationals; `0` on the empty list. -/
def listMax : List ℚ → ℚ
  | [] => 0
  | x :: xs => xs.foldl max x

/-- Column `d` of a point-cloud array: the `d`-th coordinate of every point. -/
def colVals (points : List (List ℚ)) (d : ℕ) : List ℚ :=
  points.map (fun p => p.getD d 0)

/-- `points.min(0)[d]`: minimum of column `d`. -/
def colMin (points : List (List ℚ)) (d : ℕ) : ℚ :=
  listMin (colVals points d)

/-- `points.max(0)[d]`: maximum of column `d`. -/
def colMax (points : List (List ℚ)) (d : ℕ) : ℚ :=
  listMax (colVals points d)

theorem foldl_min_le_init (l : List ℚ) (a : ℚ) : l.foldl min a ≤ a := by
  induction l generalizing a with
  | nil => exact le_refl a
  | cons x xs ih => exact le_trans (ih (min a x)) (min_le_left a x)

theorem foldl_min_le_mem (l : List ℚ) (a x : ℚ) (h : x ∈ l) : l.foldl min a ≤ x := by
  induction l generalizing a with
  | nil => cases h
  | cons y ys ih =>
      rcases List.mem_cons.mp h with rfl | hmem
      · exact le_trans (foldl_min_le_init ys (min a x)) (min_le_right a x)
      · exact ih (min a y) hmem

theorem init_le_foldl_max (l : List ℚ) (a : ℚ) : a ≤ l.foldl max a := by
  induction l generalizing a with
  | nil => exact le_refl a
  | cons x xs ih => exact le_trans (le_max_left a x) (ih (max a x))

theorem mem_le_foldl_max (l : List ℚ) (a x : ℚ) (h : x ∈ l) : x ≤ l.foldl max a := by
  induction l generalizing a with
  | nil => cases h
  | cons y ys ih =>
      rcases List.mem_cons.mp h with rfl | hmem
      · exact le_trans (le_max_right a x) (init_le_foldl_max ys (max a x))
      · exact ih (max a y) hmem

theorem listMin_le_mem (l : List ℚ) (x : ℚ) (h : x ∈ l) : listMin l ≤ x := by
  cases l with
  | nil => cases h
  | cons y ys =>
      rcases List.mem_cons.mp h with rfl | hmem
      · exact foldl_min_le_init ys x
      · exact foldl_min_le_mem ys y x hmem

theorem mem_le_listMax (l : List ℚ) (x : ℚ) (h : x ∈ l) : x ≤ listMax l := by
  cases l with
  | nil => cases h
  | cons y ys =>
      rcases List.mem_cons.mp h with rfl | hmem
      · exact init_le_foldl_max ys x
      · exact mem_le_foldl_max ys y x hmem

theorem colMin_le (points : List (List ℚ)) (d : ℕ) (p : List ℚ) (h : p ∈ points) :
    colMin points d ≤ p.getD d 0 :=
  listMin_le_mem _ _ (List.mem_map_of_mem (fun q => q.getD d 0) h)

theorem le_colMax (points : List (List ℚ)) (d : ℕ) (p : List ℚ) (h : p ∈ points) :
    p.getD d 0 ≤ colMax points d :=
  mem_le_listMax _ _ (List.mem_map_of_mem (fun q => q.getD d 0) h)

/-! ### Ceiling of the base-2 logarithm (`np.ceil(np.log2 _)`)

`ceilLog2 n` is the least `k` with `n ≤ 2 ^ k` (the source computes
`ceil(log2 x)` on floats; on arguments `≥ 1` the two agree).  The recursion
halves the argument (rounding up), so the argument itself is ample fuel. -/

def clog2Aux : ℕ → ℕ → ℕ
  | 0, _ => 0
  | fuel + 1, n => if n ≤ 1 then 0 else clog2Aux fuel ((n + 1) / 2) + 1

/-- `ceil (log2 n)` for `n ≥ 1` (and `0` for `n = 0`). -/
def ceilLog2 (n : ℕ) : ℕ := clog2Aux n n

/-- `ceil (log2 q)` of a rational `q ≥ 1`, computed through its integer ceiling
(for `q ≥ 1`, `q ≤ 2 ^ k` iff `⌈q⌉ ≤ 2 ^ k`). -/
def ceilLog2q (q : ℚ) : ℕ := ceilLog2 ⌈q⌉.toNat

theorem clog2Aux_le (fuel n : ℕ) (h : n ≤ fuel) : n ≤ 2 ^ clog2Aux fuel n := by
  induction fuel generalizing n with
  | zero =>
      have hn : n = 0 := by omega
      simp [hn, clog2Aux]
  | succ fuel ih =>
      by_cases h1 : n ≤ 1
      · rw [clog2Aux, if_pos h1]
        simpa using h1
      · have h2 : 2 ≤ n := by omega
        have hm : (n + 1) / 2 ≤ fuel := by omega
        have := ih ((n + 1) / 2) hm
        have hn : n ≤ 2 * ((n + 1) / 2) := by omega
        calc n ≤ 2 * ((n + 1) / 2) := hn
          _ ≤ 2 * 2 ^ clog2Aux fuel ((n + 1) / 2) := by
              exact Nat.mul_le_mul_left 2 this
          _ = 2 ^ (clog2Aux fuel ((n + 1) / 2) + 1) := by ring
          _ = 2 ^ clog2Aux (fuel + 1) n := by simp [clog2Aux, h1]

theorem le_two_pow_ceilLog2 (n : ℕ) : n ≤ 2 ^ ceilLog2 n :=
  clog2Aux_le n n (le_refl n)

theorem clog2Aux_pos (fuel n : ℕ) (h : n ≤ fuel) (h2 : 2 ≤ n) :
    1 ≤ clog2Aux fuel n := by
  cases fuel with
  | zero => omega
  | succ fuel =>
      have h1 : ¬ n ≤ 1 := by omega
      simp [clog2Aux, h1]

theorem clog2Aux_lower (fuel n : ℕ) (h : n ≤ fuel) (h2 : 2 ≤ n) :
    2 ^ (clog2Aux fuel n - 1) < n := by
  induction fuel generalizing n with
  | zero => omega
  | succ fuel ih =>
      have h1 : ¬ n ≤ 1 := by omega
      rw [clog2Aux, if_neg h1]
      set m := (n + 1) / 2 with hm
      by_cases hm2 : 2 ≤ m
      · have hmf : m ≤ fuel := by omega
        have hlow := ih m hmf hm2
        have hpos := clog2Aux_pos fuel m hmf hm2
        set k := clog2Aux fuel m with hk
        have hk1 : k - 1 + 1 = k := by omega
        have h2k : 2 ^ (k - 1 + 1) = 2 * 2 ^ (k - 1) := by ring
        rw [hk1] at h2k
        -- from `2 ^ (k - 1) < m = ⌈n / 2⌉` conclude `2 ^ k < n`
        have : 2 ^ (k - 1) + 1 ≤ m := hlow
        have hn : 2 ^ k + 1 ≤ n := by omega
        simpa using by omega
      · -- `m ≤ 1`, so `n ≤ 3`, in fact `n ∈ {2, 3}` here; the inner call gives 0
        have hm1 : m ≤ 1 := by omega
        have hmz : n ≤ 2 := by omega
        have : clog2Aux fuel m = 0 := by
          cases fuel with
          | zero => rfl
          | succ fuel => simp [clog2Aux, hm1]
        rw [this]
        simpa using by omega

theorem two_pow_pred_lt_ceilLog2 (n : ℕ) (h2 : 2 ≤ n) :
    2 ^ (ceilLog2 n - 1) < n :=
  clog2Aux_lower n n (le_refl n) h2

/-- `ceilLog2` is characterized by `2 ^ (k-1) < n ≤ 2 ^ k` (for `k ≥ 1`). -/
theorem ceilLog2_eq (n k : ℕ) (hk : 0 < k) (h1 : n ≤ 2 ^ k) (h2 : 2 ^ (k - 1) < n) :
    ceilLog2 n = k := by
  have hn2 : 2 ≤ n := by
    have : 1 ≤ 2 ^ (k - 1) := Nat.one_le_two_pow
    omega
  have hA := le_two_pow_ceilLog2 n
  have hB := two_pow_pred_lt_ceilLog2 n hn2
  by_contra hne
  rcases Nat.lt_or_ge (ceilLog2 n) k with hlt | hge
  · -- then ceilLog2 n ≤ k - 1, so n ≤ 2 ^ (k - 1), contradicting h2
    have : 2 ^ ceilLog2 n ≤ 2 ^ (k - 1) :=
      Nat.pow_le_pow_right (by norm_num) (by omega)
    omega
  · have hgt : k < ceilLog2 n := by omega
    have : 2 ^ k ≤ 2 ^ (ceilLog2 n - 1) :=
      Nat.pow_le_pow_right (by norm_num) (by omega)
    omega

/-- Any rational is at most `2 ^ ceilLog2q` of itself (cast to `ℚ`). -/
theorem le_two_pow_ceilLog2q (q : ℚ) : q ≤ ((2 ^ ceilLog2q q : ℕ) : ℚ) := by
  rcases le_or_lt q 0 with hq | hq
  · calc q ≤ 0 := hq
      _ ≤ ((2 ^ ceilLog2q q : ℕ) : ℚ) := by positivity
  · have hceil : (0 : ℤ) ≤ ⌈q⌉ := Int.ceil_nonneg hq.le
    have h1 : q ≤ (⌈q⌉ : ℚ) := Int.le_ceil q
    have h2 : ((⌈q⌉ : ℤ) : ℚ) = ((⌈q⌉.toNat : ℕ) : ℚ) := by
      exact_mod_cast (Int.toNat_of_nonneg hceil).symm
    have h3 : (⌈q⌉.toNat : ℕ) ≤ 2 ^ ceilLog2 ⌈q⌉.toNat :=
      le_two_pow_ceilLog2 _
    calc q ≤ (⌈q⌉ : ℚ) := h1
      _ = ((⌈q⌉.toNat : ℕ) : ℚ) := h2
      _ ≤ ((2 ^ ceilLog2q q : ℕ) : ℚ) := by exact_mod_cast h3

/-! ### Bit packing helpers

`VoxelFilter` stores `shifts = np.cumsum(address_widths)[:-1]` and applies the
`i`-th shift to coordinate column `i + 1` (column `0` is unshifted); the same
shifting loop is used both on voxel coordinates (encoding) and on the bit
masks. -/

/-- `np.cumsum(ws)[:-1]`: partial sums of `ws` without the final total. -/
def cumShifts : List ℕ → List ℕ
  | [] => []
  | [_] => []
  | w :: ws => w :: (cumShifts ws).map (fun s => w + s)

/-- The source's shifting loop: leave the head element alone and shift element
`i + 1` left by `shifts[i]`. -/
def applyShifts (xs shifts : List ℕ) : List ℕ :=
  match xs with
  | [] => []
  | x :: rest => x :: List.zipWith (fun y s => y <<< s) rest shifts

/-- `_calculate_masks`: a run of `widths[i]` one-bits, element `i + 1` shifted
left by `shifts[i]`. -/
def masksOf (ws : List ℕ) : List ℕ :=
  applyShifts (ws.map (fun w => 2 ^ w - 1)) (cumShifts ws)

/-- `address_to_coordinate`'s extraction loop: mask the address with each mask,
then shift element `i + 1` right by `shifts[i]`. -/
def decodeFields (a : ℕ) (masks shifts : List ℕ) : List ℕ :=
  match masks with
  | [] => []
  | m :: ms => (a &&& m) :: List.zipWith (fun m' s => (a &&& m') >>> s) ms shifts

/-- Little-endian fixed-width packing of per-axis grid coordinates: the
mathematical value of the packed address. -/
def pack : List ℕ → List ℕ → ℕ
  | [], _ => 0
  | _, [] => 0
  | g :: gs, w :: ws => g + 2 ^ w * pack gs ws

/-- Arithmetic field extraction: peel `ws.head` low bits, recurse on the rest. -/
def specExtract : ℕ → List ℕ → List ℕ
  | _, [] => []
  | a, w :: ws => (a % 2 ^ w) :: specExtract (a / 2 ^ w) ws

theorem cumShifts_cons (w : ℕ) (ws : List ℕ) (h : ws ≠ []) :
    cumShifts (w :: ws) = w :: (cumShifts ws).map (fun s => w + s) := by
  cases ws with
  | nil => cases h rfl
  | cons w' ws' => rfl

theorem cumShifts_length (ws : List ℕ) : (cumShifts ws).length = ws.length - 1 := by
  induction ws with
  | nil => rfl
  | cons w ws ih =>
      cases ws with
      | nil => rfl
      | cons w' ws' =>
          rw [cumShifts_cons w (w' :: ws') (by simp)]
          simp only [List.length_cons, List.length_map] at *
          omega

/-- Masked extraction commutes with a common left shift. -/
theorem and_shiftLeft_shiftRight (a m w : ℕ) :
    (a &&& (m <<< w)) >>> w = (a >>> w) &&& m := by
  apply Nat.eq_of_testBit_eq
  intro i
  simp only [Nat.testBit_shiftRight, Nat.testBit_and, Nat.testBit_shiftLeft]
  have h1 : w ≤ w + i := Nat.le_add_right w i
  simp [h1, Nat.add_sub_cancel_left]

theorem zipWith_congr_fun {α β γ : Type} (f g : α → β → γ) (l1 : List α)
    (l2 : List β) (h : ∀ x y, f x y = g x y) :
    List.zipWith f l1 l2 = List.zipWith g l1 l2 := by
  induction l1 generalizing l2 with
  | nil => simp
  | cons x xs ih =>
      cases l2 with
      | nil => simp
      | cons y ys => simp [List.zipWith_cons_cons, h x y, ih ys]

/-- Shifting the shift amounts by `w` shifts every zipped result by `w`. -/
theorem zipWith_shiftLeft_map_add (ys ss : List ℕ) (w : ℕ) :
    List.zipWith (fun y s => y <<< s) ys (ss.map (fun s => w + s)) =
    (List.zipWith (fun y s => y <<< s) ys ss).map (fun y => y <<< w) := by
  rw [List.zipWith_map_right, List.map_zipWith]
  apply zipWith_congr_fun
  intro y s
  rw [← Nat.shiftLeft_add, Nat.add_comm]

theorem sum_map_shiftLeft (l : List ℕ) (w : ℕ) :
    (l.map (fun y => y <<< w)).sum = 2 ^ w * l.sum := by
  induction l with
  | nil => simp
  | cons x xs ih =>
      simp only [List.map_cons, List.sum_cons, ih]
      rw [Nat.shiftLeft_eq]
      ring

theorem masksOf_cons (w : ℕ) (ws : List ℕ) (h : ws ≠ []) :
    masksOf (w :: ws) = (2 ^ w - 1) :: (masksOf ws).map (fun m => m <<< w) := by
  cases ws with
  | nil => cases h rfl
  | cons w' ws' =>
      simp only [masksOf, List.map_cons, cumShifts_cons w (w' :: ws') (by simp),
        applyShifts, List.zipWith_cons_cons]
      rw [zipWith_shiftLeft_map_add]

/-- The encoding loop (shift each column, then sum) computes `pack`. -/
theorem applyShifts_sum_eq_pack (gs ws : List ℕ) (h : gs.length = ws.length) :
    (applyShifts gs (cumShifts ws)).sum = pack gs ws := by
  induction gs generalizing ws with
  | nil =>
      cases ws with
      | nil => rfl
      | cons w ws' => simp at h
  | cons g gs ih =>
      cases ws with
      | nil => simp at h
      | cons w ws' =>
          cases ws' with
          | nil =>
              have : gs = [] := by
                simpa using h
              subst this
              simp [applyShifts, cumShifts, pack]
          | cons w' ws'' =>
              rw [cumShifts_cons w (w' :: ws'') (by simp)]
              cases gs with
              | nil => simp at h
              | cons g' gs' =>
                  simp only [applyShifts, pack, List.zipWith_cons_cons,
                    List.sum_cons]
                  rw [zipWith_shiftLeft_map_add, sum_map_shiftLeft]
                  have hrec := ih (w' :: ws'') (by simpa using h)
                  simp only [applyShifts, List.sum_cons, pack] at hrec
                  rw [Nat.shiftLeft_eq, ← hrec]
                  ring

/-- Decoding with the masks is division and remainder by powers of two:
field `i` of address `a` is `a / 2 ^ shift[i] % 2 ^ width[i]`, independently of
any bound on `a`. -/
theorem decodeFields_eq_specExtract (ws : List ℕ) (a : ℕ) :
    decodeFields a (masksOf ws) (cumShifts ws) = specExtract a ws := by
  induction ws generalizing a with
  | nil => rfl
  | cons w ws ih =>
      cases ws with
      | nil =>
          simp [masksOf, cumShifts, applyShifts, decodeFields, specExtract,
            Nat.and_pow_two_sub_one_eq_mod]
      | cons w' ws' =>
          rw [masksOf_cons w (w' :: ws') (by simp),
            cumShifts_cons w (w' :: ws') (by simp)]
          have hne : masksOf (w' :: ws') ≠ [] := by
            simp [masksOf, applyShifts]
          cases hm : masksOf (w' :: ws') with
          | nil => cases hne hm
          | cons m ms =>
              simp only [decodeFields, List.map_cons, List.zipWith_cons_cons]
              have hhead : (a &&& m <<< w) >>> w = (a / 2 ^ w) &&& m := by
                rw [and_shiftLeft_shiftRight, Nat.shiftRight_eq_div_pow]
              have htail :
                  List.zipWith (fun m' s => (a &&& m') >>> s)
                    (ms.map (fun m' => m' <<< w))
                    ((cumShifts (w' :: ws')).map (fun s => w + s)) =
                  List.zipWith (fun m' s => ((a / 2 ^ w) &&& m') >>> s) ms
                    (cumShifts (w' :: ws')) := by
                rw [List.zipWith_map_right, List.zipWith_map_left]
                apply zipWith_congr_fun
                intro m' s
                rw [Nat.shiftRight_add, and_shiftLeft_shiftRight,
                  Nat.shiftRight_eq_div_pow a w]
              have hih := ih (a / 2 ^ w)
              rw [hm] at hih
              simp only [decodeFields] at hih
              rw [Nat.and_pow_two_sub_one_eq_mod, hhead, htail, hih]
              rfl

/-- Arithmetic extraction undoes `pack` when every field fits its width. -/
theorem specExtract_pack (gs ws : List ℕ) (hlen : gs.length = ws.length)
    (hfit : ∀ k, k < gs.length → gs.getD k 0 < 2 ^ ws.getD k 0) :
    specExtract (pack gs ws) ws = gs := by
  induction gs generalizing ws with
  | nil =>
      cases ws with
      | nil => rfl
      | cons w ws' => simp at hlen
  | cons g gs ih =>
      cases ws with
      | nil => simp at hlen
      | cons w ws' =>
          have hg : g < 2 ^ w := by
            have := hfit 0 (by simp)
            simpa using this
          simp only [pack, specExtract]
          have hpos : 0 < 2 ^ w := Nat.pos_pow_of_pos w (by norm_num)
          have hmod : (g + 2 ^ w * pack gs ws') % 2 ^ w = g := by
            rw [Nat.add_mul_mod_self_left, Nat.mod_eq_of_lt hg]
          have hdiv : (g + 2 ^ w * pack gs ws') / 2 ^ w = pack gs ws' := by
            rw [Nat.add_mul_div_left g _ hpos, Nat.div_eq_of_lt hg, Nat.zero_add]
          rw [hmod, hdiv]
          congr 1
          refine ih ws' (by simpa using hlen) ?_
          intro k hk
          have := hfit (k + 1) (by simpa using Nat.succ_lt_succ hk)
          simpa using this

/-- Full decode of an encoded address when every field fits its width. -/
theorem decodeFields_pack (gs ws : List ℕ) (hlen : gs.length = ws.length)
    (hfit : ∀ k, k < gs.length → gs.getD k 0 < 2 ^ ws.getD k 0) :
    decodeFields (pack gs ws) (masksOf ws) (cumShifts ws) = gs := by
  rw [decodeFields_eq_specExtract, specExtract_pack gs ws hlen hfit]

/-! ### `VoxelFilter`

A cubic grid of a given edge length enclosing a 2D/3D point cloud, converting
point coordinates to bit-packed integer addresses and back.  Exceptions are
modelled as `Except.error` carrying the source's message. -/

structure VoxelFilter where
  minimumCorner : List ℚ
  maximumCorner : List ℚ
  edgeLength : ℚ
  shifts : List ℕ
  widths : List ℕ
  masks : List ℕ
deriving DecidableEq, Repr

/-- `VoxelFilter.__init__` followed by `_calculate_shift` and
`_calculate_masks`.  A ragged list of rows is the analogue of a numpy array
with `ndim != 2`.  The address widths `ceil(log2(span / edge_length))` are
nonnegative because `span = ptp + edge_length ≥ edge_length`; they are modelled
directly as naturals. -/
def mkVoxelFilter (points : List (List ℚ)) (edgeLength : ℚ) :
    Except String VoxelFilter :=
  let d := (points.headD []).length
  if ¬ points.all (fun p => p.length = d) then
    .error "wrong point cloud array shape"
  else if ¬ (d = 2 ∨ d = 3) then
    .error "only 2D and 3D spaces supported"
  else if points.length < 2 then
    .error "need at least 2 points to define a voxel grid"
  else
    let minC := (List.range d).map (fun k => colMin points k - edgeLength / 2)
    let maxC := (List.range d).map (fun k => colMax points k + edgeLength / 2)
    let widths := List.zipWith (fun hi lo => ceilLog2q ((hi - lo) / edgeLength))
      maxC minC
    if 64 < widths.sum then
      .error "edge length is too small to address this space"
    else
      .ok { minimumCorner := minC, maximumCorner := maxC,
            edgeLength := edgeLength, shifts := cumShifts widths,
            widths := widths, masks := masksOf widths }

/-- Effective per-axis bit shift: the code stores shifts only for axes `1..`
(`shifts = cumsum(widths)[:-1]`) and leaves axis `0` unshifted, so the per-axis
shift sequence of the spec is `0` followed by the stored shifts. -/
def bitShifts (f : VoxelFilter) : List ℕ := 0 :: f.shifts

/-- `_check_in_bounds` (as a boolean; the caller turns a failure into the
matching error).  Checks the column dimension and that the per-axis minimum
and maximum of the batch stay inside the filter's corners. -/
def checkInBounds (f : VoxelFilter) (points : List (List ℚ)) : Bool :=
  (List.range (f.shifts.length + 1)).all (fun k =>
    decide (f.minimumCorner.getD k 0 ≤ colMin points k) &&
    decide (colMax points k ≤ f.maximumCorner.getD k 0))

/-- Per-point voxel coordinates `floor((point - minimum_corner) / edge_length)`
(nonnegative for in-bounds points, hence the `toNat`). -/
def voxelCoordinates (f : VoxelFilter) (p : List ℚ) : List ℕ :=
  List.zipWith (fun x m => (⌊(x - m) / f.edgeLength⌋).toNat) p f.minimumCorner

/-- `coordinate_to_address`: validate, convert to voxel coordinates, shift
columns `1..` left by the stored shifts, and sum the columns. -/
def coordinateToAddress (f : VoxelFilter) (points : List (List ℚ)) :
    Except String (List ℕ) :=
  if ¬ points.all (fun p => p.length = f.shifts.length + 1) then
    .error "wrong number of spatial dimensions"
  else if ¬ checkInBounds f points then
    .error "some points fall outside filter bounding region"
  else
    .ok (points.map (fun p => (applyShifts (voxelCoordinates f p) f.shifts).sum))

/-- `address_to_coordinate`: mask out each axis' bits, shift columns `1..`
right, and place each grid coordinate at the center of its cell.  The source
performs no validation here: every natural number decodes. -/
def addressToCoordinate (f : VoxelFilter) (addresses : List ℕ) :
    List (List ℚ) :=
  addresses.map (fun a =>
    List.zipWith
      (fun (g : ℕ) (m : ℚ) => (g : ℚ) * f.edgeLength + m + f.edgeLength * (1/2))
      (decodeFields a f.masks f.shifts) f.minimumCorner)

/-- `find_neighbors`: the source unconditionally raises
`NameError("find_neighbors not implemented yet")`. -/
def findNeighbors (_f : VoxelFilter) (_address : ℕ) : Except String (List ℕ) :=
  .error "find_neighbors not implemented yet"

/-- `find_facing_neighbors`: the source unconditionally raises
`NameError("find_facing_neighbors not implemented yet")`. -/
def findFacingNeighbors (_f : VoxelFilter) (_address : ℕ) :
    Except String (List ℕ) :=
  .error "find_facing_neighbors not implemented yet"

/-- The filter built from the spec's worked example: points `[[0,0],[3,4]]`
with `edge_length = 1`. -/
def exampleFilter : VoxelFilter :=
  { minimumCorner := [-(1/2), -(1/2)], maximumCorner := [7/2, 9/2],
    edgeLength := 1, shifts := [2], widths := [2, 3], masks := [3, 28] }

/-! ### `nested_regions`

Joint region filter over a query set and a buffered search space.  The inner
`region_indices` skips a per-axis threshold when no point could violate it;
masks are modelled as boolean predicates applied pointwise (numpy applies the
same comparison elementwise over the column). -/

/-- The mask-collection loop of `region_indices`: for axis `d` (the enumeration
counter), append a low-side mask only when some point lies below the low bound
and a high-side mask only when some point lies above the high bound. -/
def buildMasks (points : List (List ℚ)) : ℕ → List ℚ → List ℚ →
    List (List ℚ → Bool)
  | _, [], _ => []
  | _, _, [] => []
  | d, lo :: lows, hi :: highs =>
      (if colMin points d < lo then [fun p => decide (lo ≤ p.getD d 0)] else []) ++
      (if hi < colMax points d then [fun p => decide (p.getD d 0 ≤ hi)] else []) ++
      buildMasks points (d + 1) lows highs

/-- `region_indices`: indices of all points between `low_side` and `high_side`;
if no mask was necessary the whole index range is returned. -/
def regionIndices (points : List (List ℚ)) (lowSide highSide : List ℚ) :
    List ℕ :=
  let allMasks := buildMasks points 0 lowSide highSide
  if allMasks.isEmpty then List.range points.length
  else (List.range points.length).filter
    (fun i => allMasks.all (fun m => m (points.getD i [])))

/-- `nested_regions`: query indices against the box itself, search indices
against the box grown by `buffer_radius` on every axis. -/
def nestedRegions (querySet searchSpace : List (List ℚ)) (bufferRadius : ℚ)
    (minimumCorner maximumCorner : List ℚ) : List ℕ × List ℕ :=
  (regionIndices querySet minimumCorner maximumCorner,
   regionIndices searchSpace
     (minimumCorner.map (fun c => c - bufferRadius))
     (maximumCorner.map (fun c => c + bufferRadius)))

/-- The specification's description of the filter: a point is kept iff it lies
between the corners on every axis. -/
def inBox (p lowSide highSide : List ℚ) : Bool :=
  (List.range lowSide.length).all (fun k =>
    decide (lowSide.getD k 0 ≤ p.getD k 0 ∧ p.getD k 0 ≤ highSide.getD k 0))

/-! ### `NestedOctree`

The recursive nested partitioner.  As written in the source, `partition`
handles only the leaf case: when the local search population exceeds
`max_population` it computes the octant edge length and then falls through
(`pass`), recording nothing.  Consequently every recorded cube is a bare
index pair and `partition_generator`'s `AttributeError` fallback always yields
the pair itself. -/

structure NestedOctree where
  querySet : List (List ℚ)
  searchSpace : List (List ℚ)
  bufferRadius : ℚ
  minimumCorner : List ℚ
  maximumCorner : List ℚ
  cubes : List (List ℕ × List ℕ)
deriving DecidableEq, Repr

/-- `NestedOctree.__init__`: validate both clouds (3D, at least 2 points),
require a positive buffer radius (the source rejects `buffer_radius <= 0`),
and take the query set's bounding box as the region of interest. -/
def mkNestedOctree (querySet searchSpace : List (List ℚ)) (bufferRadius : ℚ) :
    Except String NestedOctree :=
  let dq := (querySet.headD []).length
  let ds := (searchSpace.headD []).length
  if ¬ querySet.all (fun p => p.length = dq) then
    .error "wrong point cloud array shape"
  else if dq ≠ 3 then
    .error "only 3D spaces are supported"
  else if querySet.length < 2 then
    .error "need at least 2 points to partition"
  else if ¬ searchSpace.all (fun p => p.length = ds) then
    .error "wrong point cloud array shape"
  else if ds ≠ 3 then
    .error "only 3D spaces are supported"
  else if searchSpace.length < 2 then
    .error "need at least 2 points to partition"
  else if bufferRadius ≤ 0 then
    .error "buffer radius cannot be negative"
  else
    .ok { querySet := querySet, searchSpace := searchSpace,
          bufferRadius := bufferRadius,
          minimumCorner := (List.range 3).map (colMin querySet),
          maximumCorner := (List.range 3).map (colMax querySet),
          cubes := [] }

/-- `NestedOctree.partition`: filter the node's own region; if the local search
population is within `max_population`, record the pair as a leaf.  Otherwise
the source computes the octant edge (`cube_edge`) and then does nothing
(`pass`): no octants, no children, no recorded cubes.  `minimum_factor` is
consequently never read. -/
def NestedOctree.partition (o : NestedOctree) (maxPopulation : ℕ)
    (_minimumFactor : ℚ) : NestedOctree :=
  let localIndices := nestedRegions o.querySet o.searchSpace o.bufferRadius
    o.minimumCorner o.maximumCorner
  if localIndices.2.length ≤ maxPopulation then
    { o with cubes := o.cubes ++ [localIndices] }
  else
    o

/-- `NestedOctree.partition_generator`: iterate over the recorded cubes.  Each
cube recorded by the source is a bare index pair (tuples have no
`partition_generator` attribute), so the fallback yields the pair itself. -/
def NestedOctree.partitionGenerator (o : NestedOctree) :
    List (List ℕ × List ℕ) :=
  o.cubes

/-! ### Correctness of the mask-skipping optimization in `region_indices` -/

theorem buildMasks_all_iff (points : List (List ℚ)) (p : List ℚ)
    (hp : p ∈ points) :
    ∀ (lows highs : List ℚ) (d : ℕ),
    ((buildMasks points d lows highs).all (fun m => m p) = true ↔
     ∀ k, k < min lows.length highs.length →
       lows.getD k 0 ≤ p.getD (d + k) 0 ∧ p.getD (d + k) 0 ≤ highs.getD k 0) := by
  intro lows
  induction lows with
  | nil =>
      intro highs d
      simp [buildMasks]
  | cons lo lows ih =>
      intro highs d
      cases highs with
      | nil => simp [buildMasks]
      | cons hi highs =>
          have hsplit : ∀ P : ℕ → Prop,
              (∀ k, k < min (lo :: lows).length (hi :: highs).length → P k) ↔
              (P 0 ∧ ∀ j, j < min lows.length highs.length → P (j + 1)) := by
            intro P
            constructor
            · intro h
              refine ⟨h 0 (by simp), fun j hj => h (j + 1) ?_⟩
              simp only [List.length_cons, Nat.lt_min] at hj ⊢
              omega
            · rintro ⟨h0, hs⟩ k hk
              cases k with
              | zero => exact h0
              | succ j =>
                  refine hs j ?_
                  simp only [List.length_cons, Nat.lt_min] at hk ⊢
                  omega
          rw [hsplit]
          have hlow0 : ¬ colMin points d < lo → lo ≤ p.getD (d + 0) 0 := by
            intro h
            have := colMin_le points d p hp
            simp only [Nat.add_zero]
            linarith [not_lt.mp h]
          have hhigh0 : ¬ hi < colMax points d → p.getD (d + 0) 0 ≤ hi := by
            intro h
            have := le_colMax points d p hp
            simp only [Nat.add_zero]
            linarith [not_lt.mp h]
          have hrest := ih highs (d + 1)
          have hidx : ∀ j, d + 1 + j = d + (j + 1) := by omega
          by_cases hlo : colMin points d < lo <;>
            by_cases hhi : hi < colMax points d <;>
            simp only [buildMasks, hlo, hhi, if_true, if_false,
              List.append_assoc, List.all_append, List.all_cons, List.all_nil,
              Bool.and_eq_true, decide_eq_true_eq, Bool.and_true, List.nil_append,
              hrest, hidx, List.getD_cons_zero, List.getD_cons_succ] <;>
            constructor
          · rintro ⟨h1, h2, h3⟩
            exact ⟨⟨h1, h2⟩, h3⟩
          · rintro ⟨⟨h1, h2⟩, h3⟩
            exact ⟨h1, h2, h3⟩
          · rintro ⟨h1, h3⟩
            exact ⟨⟨h1, hhigh0 hhi⟩, h3⟩
          · rintro ⟨⟨h1, _⟩, h3⟩
            exact ⟨h1, h3⟩
          · rintro ⟨h2, h3⟩
            exact ⟨⟨hlow0 hlo, h2⟩, h3⟩
          · rintro ⟨⟨_, h2⟩, h3⟩
            exact ⟨h2, h3⟩
          · intro h3
            exact ⟨⟨hlow0 hlo, hhigh0 hhi⟩, h3⟩
          · rintro ⟨_, h3⟩
            exact h3

theorem inBox_iff (p lows highs : List ℚ) (hlen : highs.length = lows.length) :
    (inBox p lows highs = true ↔ ∀ k, k < min lows.length highs.length →
      lows.getD k 0 ≤ p.getD k 0 ∧ p.getD k 0 ≤ highs.getD k 0) := by
  unfold inBox
  rw [List.all_eq_true]
  constructor
  · intro h k hk
    have := h k (by simp only [List.mem_range]; omega)
    simpa using this
  · intro h k hk
    simp only [List.mem_range] at hk
    simp only [decide_eq_true_eq]
    exact h k (by omega)

theorem getD_mem (points : List (List ℚ)) (i : ℕ) (hi : i < points.length) :
    points.getD i [] ∈ points := by
  rw [List.getD_eq_getElem points [] hi]
  exact List.getElem_mem hi

theorem regionIndices_eq (points : List (List ℚ)) (lows highs : List ℚ)
    (hlen : highs.length = lows.length) :
    regionIndices points lows highs =
    (List.range points.length).filter
      (fun i => inBox (points.getD i []) lows highs) := by
  unfold regionIndices
  by_cases hB : (buildMasks points 0 lows highs).isEmpty
  · rw [if_pos hB]
    symm
    rw [List.filter_eq_self]
    intro i hi
    rw [List.mem_range] at hi
    have hp := getD_mem points i hi
    rw [inBox_iff _ _ _ hlen]
    intro k hk
    have hall : (buildMasks points 0 lows highs).all
        (fun m => m (points.getD i [])) = true := by
      rw [List.isEmpty_iff] at hB
      rw [hB]
      rfl
    have := (buildMasks_all_iff points _ hp lows highs 0).mp hall k hk
    simpa using this
  · rw [if_neg hB]
    apply List.filter_congr
    intro i hi
    rw [List.mem_range] at hi
    have hp := getD_mem points i hi
    have h1 := buildMasks_all_iff points _ hp lows highs 0
    have h2 := inBox_iff (points.getD i []) lows highs hlen
    simp only [Nat.zero_add] at h1
    rw [Bool.eq_iff_iff, h1, h2]

set_option maxRecDepth 10000

theorem ceilLog2q_natCast (n : ℕ) : ceilLog2q ((n : ℚ)) = ceilLog2 n := by
  unfold ceilLog2q
  rw [Int.ceil_natCast]
  simp

/-- Structural consequences of a successful `VoxelFilter` construction. -/
theorem mkVoxelFilter_fields (points : List (List ℚ)) (edge : ℚ)
    (f : VoxelFilter) (hmk : mkVoxelFilter points edge = .ok f) :
    f.minimumCorner = (List.range (points.headD []).length).map
      (fun k => colMin points k - edge / 2) ∧
    f.maximumCorner = (List.range (points.headD []).length).map
      (fun k => colMax points k + edge / 2) ∧
    f.edgeLength = edge ∧
    f.widths = List.zipWith (fun hi lo => ceilLog2q ((hi - lo) / edge))
      f.maximumCorner f.minimumCorner ∧
    f.shifts = cumShifts f.widths ∧
    f.masks = masksOf f.widths ∧
    ((points.headD []).length = 2 ∨ (points.headD []).length = 3) ∧
    2 ≤ points.length := by
  simp only [mkVoxelFilter] at hmk
  split at hmk
  next h1 => exact Except.noConfusion hmk
  next h1 =>
    split at hmk
    next h2 => exact Except.noConfusion hmk
    next h2 =>
      split at hmk
      next h3 => exact Except.noConfusion hmk
      next h3 =>
        split at hmk
        next h4 => exact Except.noConfusion hmk
        next h4 =>
          simp only [Except.ok.injEq] at hmk
          rw [← hmk]
          exact ⟨rfl, rfl, rfl, rfl, rfl, rfl, not_not.mp h2, by omega⟩

theorem getD_zipWith {α β γ : Type} (f : α → β → γ) (l1 : List α) (l2 : List β)
    (k : ℕ) (d1 : α) (d2 : β) (d3 : γ) (h1 : k < l1.length) (h2 : k < l2.length) :
    (List.zipWith f l1 l2).getD k d3 = f (l1.getD k d1) (l2.getD k d2) := by
  rw [List.getD_eq_getElem _ _ (by rw [List.length_zipWith]; omega),
    List.getElem_zipWith, List.getD_eq_getElem _ _ h1, List.getD_eq_getElem _ _ h2]

theorem getD_map {α β : Type} (f : α → β) (l : List α) (k : ℕ) (d1 : α) (d2 : β)
    (h : k < l.length) :
    (l.map f).getD k d2 = f (l.getD k d1) := by
  rw [List.getD_eq_getElem _ _ (by rw [List.length_map]; omega),
    List.getElem_map, List.getD_eq_getElem _ _ h]

theorem list_eq_of_getD {α : Type} (l1 l2 : List α) (dflt : α)
    (hlen : l1.length = l2.length)
    (h : ∀ k, k < l1.length → l1.getD k dflt = l2.getD k dflt) : l1 = l2 := by
  apply List.ext_getElem hlen
  intro k h1 h2
  have := h k h1
  rwa [List.getD_eq_getElem _ _ h1, List.getD_eq_getElem _ _ h2] at this

theorem colMin_singleton (p : List ℚ) (k : ℕ) : colMin [p] k = p.getD k 0 := by
  simp [colMin, colVals, listMin]

theorem colMax_singleton (p : List ℚ) (k : ℕ) : colMax [p] k = p.getD k 0 := by
  simp [colMax, colVals, listMax]

theorem floor_half_add_nat (g : ℕ) : ⌊((g : ℚ) + 1/2)⌋ = (g : ℤ) := by
  rw [add_comm, Int.floor_add_nat]
  norm_num

/-! ### Concrete evaluations of the worked example filter -/

theorem mk_exampleFilter : mkVoxelFilter [[0,0],[3,4]] 1 = .ok exampleFilter := by
  have h4 : ceilLog2q (4 : ℚ) = 2 := by
    have h : (4 : ℚ) = ((4 : ℕ) : ℚ) := by norm_num
    rw [h]
    unfold ceilLog2q
    rw [Int.ceil_natCast]
    decide
  have h5 : ceilLog2q (5 : ℚ) = 3 := by
    have h : (5 : ℚ) = ((5 : ℕ) : ℚ) := by norm_num
    rw [h]
    unfold ceilLog2q
    rw [Int.ceil_natCast]
    decide
  simp only [mkVoxelFilter]
  norm_num [colMin, colMax, colVals, listMin, listMax, min_def, max_def,
    List.range_succ]
  rw [h4, h5]
  norm_num [exampleFilter]
  exact ⟨by decide, by decide⟩

theorem encode_00 : coordinateToAddress exampleFilter [[0,0]] = .ok [0] := by
  simp only [coordinateToAddress, checkInBounds, voxelCoordinates, exampleFilter,
    applyShifts]
  norm_num [colMin, colMax, colVals, listMin, listMax, min_def, max_def,
    List.range_succ]

theorem encode_34 : coordinateToAddress exampleFilter [[3,4]] = .ok [19] := by
  simp only [coordinateToAddress, checkInBounds, voxelCoordinates, exampleFilter,
    applyShifts]
  norm_num [colMin, colMax, colVals, listMin, listMax, min_def, max_def,
    List.range_succ]
  decide

theorem decode_19 : addressToCoordinate exampleFilter [19] = [[3,4]] := by
  simp only [addressToCoordinate, exampleFilter, decodeFields]
  norm_num [List.zipWith_cons_cons]
  constructor <;>
    norm_num [show (19 &&& 3 : ℕ) = 3 by decide,
      show ((19 &&& 28) >>> 2 : ℕ) = 4 by decide]

theorem encode_0_92 : coordinateToAddress exampleFilter [[0, 9/2]] = .ok [20] := by
  simp only [coordinateToAddress, checkInBounds, voxelCoordinates, exampleFilter,
    applyShifts]
  norm_num [colMin, colMax, colVals, listMin, listMax, min_def, max_def,
    List.range_succ]
  decide

theorem decode_20 : addressToCoordinate exampleFilter [20] = [[0,5]] := by
  simp only [addressToCoordinate, exampleFilter, decodeFields]
  norm_num [List.zipWith_cons_cons]
  constructor <;>
    norm_num [show (20 &&& 3 : ℕ) = 0 by decide,
      show ((20 &&& 28) >>> 2 : ℕ) = 5 by decide]

theorem encode_05_fails : coordinateToAddress exampleFilter [[0,5]] =
    .error "some points fall outside filter bounding region" := by
  simp only [coordinateToAddress, checkInBounds, voxelCoordinates, exampleFilter,
    applyShifts]
  norm_num [colMin, colMax, colVals, listMin, listMax, min_def, max_def,
    List.range_succ]

/-! ### Concrete octree run used in the partitioner claims -/

/-- Two 3D points on the unit cube's diagonal (used as both query set and
search space). -/
def exampleQuery : List (List ℚ) := [[0,0,0],[1,1,1]]

/-- The octree `NestedOctree(exampleQuery, exampleQuery, 1)` builds. -/
def exampleOctree : NestedOctree :=
  { querySet := exampleQuery, searchSpace := exampleQuery, bufferRadius := 1,
    minimumCorner := [0,0,0], maximumCorner := [1,1,1], cubes := [] }

theorem mk_exampleOctree :
    mkNestedOctree exampleQuery exampleQuery 1 = .ok exampleOctree := by
  simp only [mkNestedOctree]
  norm_num [exampleQuery, exampleOctree, colMin, colMax, colVals, listMin,
    listMax, min_def, max_def, List.range_succ]

theorem exampleOctree_regions :
    nestedRegions exampleOctree.querySet exampleOctree.searchSpace
      exampleOctree.bufferRadius exampleOctree.minimumCorner
      exampleOctree.maximumCorner = ([0, 1], [0, 1]) := by
  simp only [exampleOctree, exampleQuery, nestedRegions, regionIndices]
  norm_num [buildMasks, colMin, colMax, colVals, listMin, listMax, min_def,
    max_def, List.range_succ]

theorem mkNestedOctree_fields (q s : List (List ℚ)) (r : ℚ) (o : NestedOctree)
    (hmk : mkNestedOctree q s r = .ok o) :
    o.cubes = [] ∧ o.querySet = q ∧ o.searchSpace = s ∧ o.bufferRadius = r := by
  simp only [mkNestedOctree] at hmk
  split at hmk
  · exact Except.noConfusion hmk
  split at hmk
  · exact Except.noConfusion hmk
  split at hmk
  · exact Except.noConfusion hmk
  split at hmk
  · exact Except.noConfusion hmk
  split at hmk
  · exact Except.noConfusion hmk
  split at hmk
  · exact Except.noConfusion hmk
  split at hmk
  · exact Except.noConfusion hmk
  simp only [Except.ok.injEq] at hmk
  rw [← hmk]
  exact ⟨rfl, rfl, rfl, rfl⟩

/-! ### Claim theorems -/

/-- **C1** (code gap): the disjoint-cover claim fails on the code as written.
On the run `NestedOctree([[0,0,0],[1,1,1]], same, 1).partition(1)` the local
search population (2) exceeds `max_population = 1`, the unimplemented
subdivision branch records nothing, and `partition_generator` yields no
partitions at all — the union of yielded `query_indices` is empty rather than
`{0, 1}` for the 2-point query set. -/
theorem octree_cover_gap :
    mkNestedOctree exampleQuery exampleQuery 1 = .ok exampleOctree ∧
    exampleQuery.length = 2 ∧
    1 < (nestedRegions exampleOctree.querySet exampleOctree.searchSpace
      exampleOctree.bufferRadius exampleOctree.minimumCorner
      exampleOctree.maximumCorner).2.length ∧
    (exampleOctree.partition 1 3).partitionGenerator = [] := by
  refine ⟨mk_exampleOctree, rfl, by rw [exampleOctree_regions]; norm_num, ?_⟩
  simp only [NestedOctree.partition, NestedOctree.partitionGenerator,
    exampleOctree_regions]
  norm_num [exampleOctree]

/-- **C2** (code gap): when the local search population exceeds
`max_population`, the source computes the octant edge and then executes
`pass`: the node is left completely unchanged — no octants are formed, no
octree or grid children are created, and no cubes are recorded. -/
theorem octree_subdivision_gap :
    mkNestedOctree exampleQuery exampleQuery 1 = .ok exampleOctree ∧
    1 < (nestedRegions exampleOctree.querySet exampleOctree.searchSpace
      exampleOctree.bufferRadius exampleOctree.minimumCorner
      exampleOctree.maximumCorner).2.length ∧
    exampleOctree.partition 1 3 = exampleOctree := by
  refine ⟨mk_exampleOctree, by rw [exampleOctree_regions]; norm_num, ?_⟩
  simp only [NestedOctree.partition, exampleOctree_regions]
  norm_num

/-- **C3**: on a freshly constructed `NestedOctree` whose region filter
reports a local search population within `max_population`, `partition` records
exactly the locally filtered `(query_indices, search_indices)` pair, and
`partition_generator` then yields exactly that one pair. -/
theorem octree_leaf_partition (q s : List (List ℚ)) (r : ℚ) (o : NestedOctree)
    (maxPop : ℕ) (mf : ℚ)
    (hmk : mkNestedOctree q s r = .ok o)
    (hpop : (nestedRegions o.querySet o.searchSpace o.bufferRadius
      o.minimumCorner o.maximumCorner).2.length ≤ maxPop) :
    (o.partition maxPop mf).cubes =
      [nestedRegions o.querySet o.searchSpace o.bufferRadius
        o.minimumCorner o.maximumCorner] ∧
    (o.partition maxPop mf).partitionGenerator =
      [nestedRegions o.querySet o.searchSpace o.bufferRadius
        o.minimumCorner o.maximumCorner] := by
  have hc := (mkNestedOctree_fields q s r o hmk).1
  simp only [NestedOctree.partition, NestedOctree.partitionGenerator]
  rw [if_pos hpop]
  simp [hc]

theorem octree_leaf_partition_witness :
    mkNestedOctree exampleQuery exampleQuery 1 = .ok exampleOctree ∧
    (nestedRegions exampleOctree.querySet exampleOctree.searchSpace
      exampleOctree.bufferRadius exampleOctree.minimumCorner
      exampleOctree.maximumCorner).2.length ≤ 2 ∧
    (exampleOctree.partition 2 3).partitionGenerator =
      [nestedRegions exampleOctree.querySet exampleOctree.searchSpace
        exampleOctree.bufferRadius exampleOctree.minimumCorner
        exampleOctree.maximumCorner] := by
  have hpop : (nestedRegions exampleOctree.querySet exampleOctree.searchSpace
      exampleOctree.bufferRadius exampleOctree.minimumCorner
      exampleOctree.maximumCorner).2.length ≤ 2 := by
    rw [exampleOctree_regions]
    decide
  exact ⟨mk_exampleOctree, hpop,
    (octree_leaf_partition exampleQuery exampleQuery 1 exampleOctree 2 3
      mk_exampleOctree hpop).2⟩

/-- **C4**: every partition yielded by `partition_generator()` after
`partition(max_population)` has at most `max_population` search indices (on
the code as written the generator only ever yields the leaf recorded under
exactly that bound). -/
theorem partition_population_bound (q s : List (List ℚ)) (r : ℚ)
    (o : NestedOctree) (maxPop : ℕ) (mf : ℚ) (pr : List ℕ × List ℕ)
    (hmk : mkNestedOctree q s r = .ok o)
    (hmem : pr ∈ (o.partition maxPop mf).partitionGenerator) :
    pr.2.length ≤ maxPop := by
  have hc := (mkNestedOctree_fields q s r o hmk).1
  simp only [NestedOctree.partition, NestedOctree.partitionGenerator] at hmem
  by_cases hpop : (nestedRegions o.querySet o.searchSpace o.bufferRadius
      o.minimumCorner o.maximumCorner).2.length ≤ maxPop
  · rw [if_pos hpop] at hmem
    rw [hc] at hmem
    simp only [List.nil_append, List.mem_singleton] at hmem
    rw [hmem]
    exact hpop
  · rw [if_neg hpop] at hmem
    rw [hc] at hmem
    simp at hmem

theorem partition_population_bound_witness :
    mkNestedOctree exampleQuery exampleQuery 1 = .ok exampleOctree ∧
    (([0,1], [0,1]) : List ℕ × List ℕ) ∈
      (exampleOctree.partition 2 3).partitionGenerator ∧
    (([0,1], [0,1]) : List ℕ × List ℕ).2.length ≤ 2 := by
  have hmem : (([0,1], [0,1]) : List ℕ × List ℕ) ∈
      (exampleOctree.partition 2 3).partitionGenerator := by
    simp only [NestedOctree.partition, NestedOctree.partitionGenerator,
      exampleOctree_regions]
    norm_num [exampleOctree]
  exact ⟨mk_exampleOctree, hmem,
    partition_population_bound exampleQuery exampleQuery 1 exampleOctree 2 3
      (([0,1], [0,1]) : List ℕ × List ℕ) mk_exampleOctree hmem⟩

/-- **C5**: `nested_regions` returns exactly the pair of index sets described
by the specification — query indices inside the box on every axis, search
indices inside the box grown by the buffer radius on every axis — and the
internal skipping of per-axis comparisons that no point could violate never
changes this result. -/
theorem nested_regions_matches_spec (q s : List (List ℚ)) (r : ℚ)
    (minC maxC : List ℚ) (hq : q ≠ []) (hs : s ≠ []) (hr : 0 ≤ r)
    (hqd : ∀ p ∈ q, p.length = minC.length)
    (hsd : ∀ p ∈ s, p.length = minC.length)
    (hlen : maxC.length = minC.length) :
    nestedRegions q s r minC maxC =
      ((List.range q.length).filter (fun i => inBox (q.getD i []) minC maxC),
       (List.range s.length).filter (fun i => inBox (s.getD i [])
         (minC.map (fun c => c - r)) (maxC.map (fun c => c + r)))) := by
  unfold nestedRegions
  rw [regionIndices_eq q minC maxC hlen,
    regionIndices_eq s (minC.map (fun c => c - r)) (maxC.map (fun c => c + r))
      (by simp [hlen])]

theorem nested_regions_matches_spec_witness :
    ([[0,0],[5,5],[10,10]] : List (List ℚ)) ≠ [] ∧
    ([[0,0],[5,5],[10,10],[-3,-3]] : List (List ℚ)) ≠ [] ∧
    (0 : ℚ) ≤ 2 ∧
    (∀ p ∈ ([[0,0],[5,5],[10,10]] : List (List ℚ)),
      p.length = ([0,0] : List ℚ).length) ∧
    (∀ p ∈ ([[0,0],[5,5],[10,10],[-3,-3]] : List (List ℚ)),
      p.length = ([0,0] : List ℚ).length) ∧
    ([5,5] : List ℚ).length = ([0,0] : List ℚ).length ∧
    nestedRegions [[0,0],[5,5],[10,10]] [[0,0],[5,5],[10,10],[-3,-3]] 2
      [0,0] [5,5] =
      ((List.range 3).filter (fun i =>
        inBox (([[0,0],[5,5],[10,10]] : List (List ℚ)).getD i []) [0,0] [5,5]),
       (List.range 4).filter (fun i =>
        inBox (([[0,0],[5,5],[10,10],[-3,-3]] : List (List ℚ)).getD i [])
          (([0,0] : List ℚ).map (fun c => c - 2))
          (([5,5] : List ℚ).map (fun c => c + 2)))) := by
  refine ⟨by simp, by simp, by norm_num, by simp, by simp, by simp, ?_⟩
  exact nested_regions_matches_spec [[0,0],[5,5],[10,10]]
    [[0,0],[5,5],[10,10],[-3,-3]] 2 [0,0] [5,5]
    (by simp) (by simp) (by norm_num) (by simp) (by simp) (by simp)

/-- **C7**: the worked addressing example.  Constructing a `VoxelFilter` from
`[[0,0],[3,4]]` with `edge_length = 1` yields corners `(-1/2,-1/2)` and
`(7/2,9/2)`, bit widths `[2,3]` and effective per-axis bit shifts `[0,2]`;
`encode([0,0]) = 0`, `encode([3,4]) = 19`, and `decode([19]) = [(3,4)]`. -/
theorem voxel_example_values :
    mkVoxelFilter [[0,0],[3,4]] 1 = .ok exampleFilter ∧
    exampleFilter.minimumCorner = [-(1/2), -(1/2)] ∧
    exampleFilter.maximumCorner = [7/2, 9/2] ∧
    exampleFilter.widths = [2, 3] ∧
    bitShifts exampleFilter = [0, 2] ∧
    coordinateToAddress exampleFilter [[0,0]] = .ok [0] ∧
    coordinateToAddress exampleFilter [[3,4]] = .ok [19] ∧
    addressToCoordinate exampleFilter [19] = [[3,4]] :=
  ⟨mk_exampleFilter, rfl, rfl, rfl, rfl, encode_00, encode_34, decode_19⟩

/-- **C8**: `VoxelFilter` construction fails with the unaddressable-region
error (the source raises `ValueError("edge length is too small to address
this space")`, the spec's `UnaddressableRegionError` class) whenever the
per-axis bit widths `ceil(log2(span/edge_length))` sum to more than 64, and
no filter value is produced. -/
theorem unaddressable_region_fails (points : List (List ℚ)) (edge : ℚ)
    (hrect : points.all (fun p => p.length = (points.headD []).length) = true)
    (hdim : (points.headD []).length = 2 ∨ (points.headD []).length = 3)
    (hcount : 2 ≤ points.length)
    (hsum : 64 < (List.zipWith (fun hi lo => ceilLog2q ((hi - lo) / edge))
      ((List.range (points.headD []).length).map
        (fun k => colMax points k + edge / 2))
      ((List.range (points.headD []).length).map
        (fun k => colMin points k - edge / 2))).sum) :
    mkVoxelFilter points edge =
      .error "edge length is too small to address this space" := by
  simp only [mkVoxelFilter]
  rw [if_neg (not_not_intro hrect), if_neg (not_not_intro hdim),
    if_neg (by omega : ¬ points.length < 2), if_pos hsum]

/-- Witness instantiating **C8** at the spec's concrete failure example: a
cloud spanning `[0, 10^9]` on both axes with `edge_length = 10^-6` has per-axis
width `ceil(log2(10^15 + 1)) = 50`, total `100 > 64`. -/
theorem unaddressable_region_fails_witness :
    (([[0,0],[10^9,10^9]] : List (List ℚ)).all
      (fun p => p.length =
        (([[0,0],[10^9,10^9]] : List (List ℚ)).headD []).length) = true) ∧
    ((([[0,0],[10^9,10^9]] : List (List ℚ)).headD []).length = 2 ∨
      (([[0,0],[10^9,10^9]] : List (List ℚ)).headD []).length = 3) ∧
    2 ≤ ([[0,0],[10^9,10^9]] : List (List ℚ)).length ∧
    64 < (List.zipWith (fun hi lo => ceilLog2q ((hi - lo) / (1/1000000)))
      ((List.range (([[0,0],[10^9,10^9]] : List (List ℚ)).headD []).length).map
        (fun k => colMax [[0,0],[10^9,10^9]] k + (1/1000000) / 2))
      ((List.range (([[0,0],[10^9,10^9]] : List (List ℚ)).headD []).length).map
        (fun k => colMin [[0,0],[10^9,10^9]] k - (1/1000000) / 2))).sum ∧
    mkVoxelFilter [[0,0],[10^9,10^9]] (1/1000000) =
      .error "edge length is too small to address this space" := by
  have hcl : ceilLog2q ((1000000000000001 : ℚ)) = 50 := by
    have h : ((1000000000000001 : ℚ)) = ((1000000000000001 : ℕ) : ℚ) := by
      norm_num
    rw [h, ceilLog2q_natCast]
    decide
  have hsum : 64 < (List.zipWith (fun hi lo => ceilLog2q ((hi - lo) / (1/1000000)))
      ((List.range (([[0,0],[10^9,10^9]] : List (List ℚ)).headD []).length).map
        (fun k => colMax [[0,0],[10^9,10^9]] k + (1/1000000) / 2))
      ((List.range (([[0,0],[10^9,10^9]] : List (List ℚ)).headD []).length).map
        (fun k => colMin [[0,0],[10^9,10^9]] k - (1/1000000) / 2))).sum := by
    norm_num [colMin, colMax, colVals, listMin, listMax, min_def, max_def,
      List.range_succ, hcl]
  exact ⟨by decide, by decide, by decide, hsum,
    unaddressable_region_fails [[0,0],[10^9,10^9]] (1/1000000)
      (by decide) (by decide) (by decide) hsum⟩

/-- **C10** (implicit): `address_to_coordinate` performs no validation and
never fails: on every natural-number address — including addresses `encode`
never produces — it returns the cell center computed from the masked bits,
`point[k] = (a / 2^shift[k] % 2^width[k]) * edge + min[k] + edge/2`.  Only
`encode` checks its input against the grid bounds. -/
theorem decode_total_no_validation (points : List (List ℚ)) (edge : ℚ)
    (f : VoxelFilter) (hmk : mkVoxelFilter points edge = .ok f) (a : ℕ) :
    addressToCoordinate f [a] =
      [List.zipWith
        (fun (g : ℕ) (m : ℚ) => (g : ℚ) * f.edgeLength + m + f.edgeLength * (1/2))
        (specExtract a f.widths) f.minimumCorner] := by
  obtain ⟨-, -, -, -, hshift, hmask, -, -⟩ :=
    mkVoxelFilter_fields points edge f hmk
  unfold addressToCoordinate
  rw [List.map_singleton, hmask, hshift, decodeFields_eq_specExtract]

theorem decode_total_no_validation_witness :
    mkVoxelFilter [[0,0],[3,4]] 1 = .ok exampleFilter ∧
    addressToCoordinate exampleFilter [1000000] =
      [List.zipWith
        (fun (g : ℕ) (m : ℚ) => (g : ℚ) * exampleFilter.edgeLength + m +
          exampleFilter.edgeLength * (1/2))
        (specExtract 1000000 exampleFilter.widths)
        exampleFilter.minimumCorner] :=
  ⟨mk_exampleFilter,
   decode_total_no_validation [[0,0],[3,4]] 1 exampleFilter mk_exampleFilter
     1000000⟩

/-- **C6** (counterexample): the round-trip claim fails as stated.  On the
worked example filter, the in-bounds boundary point `(0, 9/2)` encodes to
address `20`, but its decoded cell center is `(0, 5)`, which lies above the
filter's maximum corner `(7/2, 9/2)`, so re-encoding raises the out-of-bounds
error instead of returning `[20]`. -/
theorem roundtrip_counterexample :
    coordinateToAddress exampleFilter [[0, 9/2]] = .ok [20] ∧
    coordinateToAddress exampleFilter (addressToCoordinate exampleFilter [20]) ≠
      .ok [20] := by
  refine ⟨encode_0_92, ?_⟩
  rw [decode_20, encode_05_fails]
  simp

/-- **C6** (amended): for every address `a` produced by `encode` on an
in-bounds point `p` whose per-axis cell center stays within the filter's
bounds — `(floor((p_k - min_k)/edge) + 1/2) * edge ≤ max_k - min_k` on every
axis `k` — decoding and re-encoding returns exactly `[a]`:
`encode(decode([a])) = [a]`.  (The counterexample shows the extra cell-center
condition is necessary: boundary cells decode to centers beyond the maximum
corner.) -/
theorem roundtrip_on_interior_cells (points : List (List ℚ)) (edge : ℚ)
    (f : VoxelFilter) (p : List ℚ) (a : ℕ)
    (hedge : 0 < edge)
    (hmk : mkVoxelFilter points edge = .ok f)
    (henc : coordinateToAddress f [p] = .ok [a])
    (hcenter : ∀ k, k < p.length →
      ((⌊(p.getD k 0 - f.minimumCorner.getD k 0) / edge⌋ : ℚ) + 1/2) * edge ≤
        f.maximumCorner.getD k 0 - f.minimumCorner.getD k 0) :
    coordinateToAddress f (addressToCoordinate f [a]) = .ok [a] := by
  obtain ⟨hmin, hmax, hedgeF, hwid, hshift, hmask, hd, hnp⟩ :=
    mkVoxelFilter_fields points edge f hmk
  have hminlen : f.minimumCorner.length = (points.headD []).length := by
    rw [hmin]; simp
  have hmaxlen : f.maximumCorner.length = (points.headD []).length := by
    rw [hmax]; simp
  have hwlen : f.widths.length = (points.headD []).length := by
    rw [hwid, List.length_zipWith, hminlen, hmaxlen]; simp
  have hslen : f.shifts.length = (points.headD []).length - 1 := by
    rw [hshift, cumShifts_length, hwlen]
  have hD1 : 1 ≤ (points.headD []).length := by rcases hd with h | h <;> omega
  simp only [coordinateToAddress] at henc
  split at henc
  next hc1 => exact Except.noConfusion henc
  next hc1 =>
  split at henc
  next hc2 => exact Except.noConfusion henc
  next hc2 =>
  replace hc1 := not_not.mp hc1
  replace hc2 := not_not.mp hc2
  simp only [List.all_cons, List.all_nil, Bool.and_true, decide_eq_true_eq] at hc1
  simp only [List.map_cons, List.map_nil, Except.ok.injEq, List.cons.injEq,
    and_true] at henc
  have hplen : p.length = (points.headD []).length := by omega
  have hbounds : ∀ k, k < (points.headD []).length →
      f.minimumCorner.getD k 0 ≤ p.getD k 0 ∧
      p.getD k 0 ≤ f.maximumCorner.getD k 0 := by
    intro k hk
    unfold checkInBounds at hc2
    rw [List.all_eq_true] at hc2
    have h := hc2 k (List.mem_range.mpr (by omega))
    simpa only [Bool.and_eq_true, decide_eq_true_eq, colMin_singleton,
      colMax_singleton] using h
  set gs := voxelCoordinates f p with hgsdef
  have hgslen : gs.length = (points.headD []).length := by
    rw [hgsdef]
    unfold voxelCoordinates
    rw [List.length_zipWith, hplen, hminlen]
    simp
  have hgsk : ∀ k, k < (points.headD []).length → gs.getD k 0 =
      (⌊(p.getD k 0 - f.minimumCorner.getD k 0) / edge⌋).toNat := by
    intro k hk
    rw [hgsdef]
    unfold voxelCoordinates
    rw [getD_zipWith _ p f.minimumCorner k 0 0 0 (by omega) (by omega), hedgeF]
  have hwk : ∀ k, k < (points.headD []).length → f.widths.getD k 0 =
      ceilLog2q ((f.maximumCorner.getD k 0 - f.minimumCorner.getD k 0) / edge) := by
    intro k hk
    conv_lhs => rw [hwid]
    rw [getD_zipWith _ _ _ k 0 0 0 (by omega) (by omega)]
  have hfl0 : ∀ k, k < (points.headD []).length →
      0 ≤ ⌊(p.getD k 0 - f.minimumCorner.getD k 0) / edge⌋ := by
    intro k hk
    apply Int.floor_nonneg.mpr
    apply div_nonneg _ hedge.le
    have := (hbounds k hk).1
    linarith
  have hgcast : ∀ k, k < (points.headD []).length →
      ((gs.getD k 0 : ℕ) : ℚ) =
      ((⌊(p.getD k 0 - f.minimumCorner.getD k 0) / edge⌋ : ℤ) : ℚ) := by
    intro k hk
    rw [hgsk k hk]
    exact_mod_cast Int.toNat_of_nonneg (hfl0 k hk)
  have hspan : ∀ k, k < (points.headD []).length →
      f.maximumCorner.getD k 0 - f.minimumCorner.getD k 0 ≤
        ((2 ^ f.widths.getD k 0 : ℕ) : ℚ) * edge := by
    intro k hk
    have h1 := le_two_pow_ceilLog2q
      ((f.maximumCorner.getD k 0 - f.minimumCorner.getD k 0) / edge)
    rw [← hwk k hk] at h1
    have h2 : f.maximumCorner.getD k 0 - f.minimumCorner.getD k 0 =
        ((f.maximumCorner.getD k 0 - f.minimumCorner.getD k 0) / edge) * edge := by
      field_simp
    rw [h2]
    exact mul_le_mul_of_nonneg_right h1 hedge.le
  have hfit : ∀ k, k < (points.headD []).length →
      gs.getD k 0 < 2 ^ f.widths.getD k 0 := by
    intro k hk
    have hcen := hcenter k (by omega)
    have h2 : ((gs.getD k 0 : ℕ) : ℚ) + 1/2 ≤ ((2 ^ f.widths.getD k 0 : ℕ) : ℚ) := by
      have h3 : (((gs.getD k 0 : ℕ) : ℚ) + 1/2) * edge ≤
          ((2 ^ f.widths.getD k 0 : ℕ) : ℚ) * edge := by
        rw [hgcast k hk]
        exact le_trans hcen (hspan k hk)
      exact le_of_mul_le_mul_right h3 hedge
    have h4 : ((gs.getD k 0 : ℕ) : ℚ) < ((2 ^ f.widths.getD k 0 : ℕ) : ℚ) := by
      linarith
    exact_mod_cast h4
  have ha : a = pack gs f.widths := by
    rw [← henc, hshift]
    exact applyShifts_sum_eq_pack gs f.widths (by omega)
  have hdf : decodeFields a f.masks f.shifts = gs := by
    rw [ha, hmask, hshift]
    exact decodeFields_pack gs f.widths (by omega) (fun k hk => hfit k (by omega))
  set q := List.zipWith
    (fun (g : ℕ) (m : ℚ) => (g : ℚ) * f.edgeLength + m + f.edgeLength * (1/2))
    gs f.minimumCorner with hqdef
  have hdec : addressToCoordinate f [a] = [q] := by
    unfold addressToCoordinate
    rw [List.map_singleton, hdf]
  have hqlen : q.length = (points.headD []).length := by
    rw [hqdef, List.length_zipWith, hgslen, hminlen]
    simp
  have hqk : ∀ k, k < (points.headD []).length → q.getD k 0 =
      (gs.getD k 0 : ℚ) * edge + f.minimumCorner.getD k 0 + edge * (1/2) := by
    intro k hk
    rw [hqdef, getD_zipWith _ _ _ k 0 0 0 (by omega) (by omega), hedgeF]
  have hq1 : [q].all (fun r => r.length = f.shifts.length + 1) = true := by
    simp only [List.all_cons, List.all_nil, Bool.and_true, decide_eq_true_eq]
    omega
  have hq2 : checkInBounds f [q] = true := by
    unfold checkInBounds
    rw [List.all_eq_true]
    intro k hkmem
    rw [List.mem_range] at hkmem
    have hk : k < (points.headD []).length := by omega
    simp only [Bool.and_eq_true, decide_eq_true_eq, colMin_singleton,
      colMax_singleton]
    constructor
    · rw [hqk k hk]
      have hpos : (0:ℚ) ≤ (gs.getD k 0 : ℚ) * edge + edge * (1/2) := by positivity
      linarith
    · rw [hqk k hk]
      have hcen := hcenter k (by omega)
      rw [← hgcast k hk] at hcen
      have hring : (((gs.getD k 0 : ℕ) : ℚ) + 1/2) * edge =
          (gs.getD k 0 : ℚ) * edge + edge * (1/2) := by ring
      rw [hring] at hcen
      linarith
  have hvq : voxelCoordinates f q = gs := by
    have hvlen : (voxelCoordinates f q).length = gs.length := by
      unfold voxelCoordinates
      rw [List.length_zipWith, hqlen, hminlen, hgslen]
      simp
    apply list_eq_of_getD _ _ 0 hvlen
    intro k hk
    have hkD : k < (points.headD []).length := by
      rw [hvlen, hgslen] at hk
      exact hk
    unfold voxelCoordinates
    rw [getD_zipWith _ _ _ k 0 0 0 (by omega) (by omega), hedgeF, hqk k hkD]
    have harg : ((gs.getD k 0 : ℚ) * edge + f.minimumCorner.getD k 0 +
        edge * (1/2) - f.minimumCorner.getD k 0) / edge =
        (gs.getD k 0 : ℚ) + 1/2 := by
      field_simp
      ring
    rw [harg, floor_half_add_nat]
    simp
  rw [hdec]
  simp only [coordinateToAddress]
  rw [if_neg (not_not_intro hq1), if_neg (not_not_intro hq2),
    List.map_singleton, hvq, henc]

theorem roundtrip_on_interior_cells_witness :
    (0 : ℚ) < 1 ∧
    mkVoxelFilter [[0,0],[3,4]] 1 = .ok exampleFilter ∧
    coordinateToAddress exampleFilter [[3,4]] = .ok [19] ∧
    (∀ k, k < ([3,4] : List ℚ).length →
      ((⌊(([3,4] : List ℚ).getD k 0 -
          exampleFilter.minimumCorner.getD k 0) / 1⌋ : ℚ) + 1/2) * 1 ≤
        exampleFilter.maximumCorner.getD k 0 -
          exampleFilter.minimumCorner.getD k 0) ∧
    coordinateToAddress exampleFilter (addressToCoordinate exampleFilter [19]) =
      .ok [19] := by
  have hcen : ∀ k, k < ([3,4] : List ℚ).length →
      ((⌊(([3,4] : List ℚ).getD k 0 -
          exampleFilter.minimumCorner.getD k 0) / 1⌋ : ℚ) + 1/2) * 1 ≤
        exampleFilter.maximumCorner.getD k 0 -
          exampleFilter.minimumCorner.getD k 0 := by
    intro k hk
    simp only [List.length_cons, List.length_nil] at hk
    interval_cases k <;> norm_num [exampleFilter]
  exact ⟨by norm_num, mk_exampleFilter, encode_34, hcen,
    roundtrip_on_interior_cells [[0,0],[3,4]] 1 exampleFilter [3,4] 19
      (by norm_num) mk_exampleFilter encode_34 hcen⟩

/-- **C9** (code gap): the neighbor-enumeration operations are unimplemented
stubs; both raise a `NameError` unconditionally instead of returning the
offset-enumerated neighbor addresses the claim describes. -/
theorem find_neighbors_unimplemented (f : VoxelFilter) (a : ℕ) :
    findNeighbors f a = .error "find_neighbors not implemented yet" ∧
    findFacingNeighbors f a = .error "find_facing_neighbors not implemented yet" :=
  ⟨rfl, rfl⟩

end Nimrud
